import Mathlib

/-!
Shallow embedding of the evaluation core of the knnlm-locality repository:

* `fairseq/sequence_scorer.py` — `SequenceScorer.__init__` (softmax ceiling),
  `batch_for_softmax` (the batch softmax splitter), `gather_target_probs`,
  `combine_knn_and_vocab_probs` (the probability combiner) and `generate`
  (the ensemble scorer);
* `fairseq_cli/eval_lm.py` — `main` (the evaluation driver): the
  configuration-conflict check, the per-sample datastore writer and the
  final perplexity report.

Modelling conventions: python integers are `Nat` or `Int`; tensors are
nested lists; exact probability values computed by the scorer are modelled
by rationals `ℚ` (the scorer only rearranges, gathers, adds and divides
them); the floating-point formulas of the probability combiner and of the
final perplexity report are modelled over the reals `ℝ`, as exact real
arithmetic.  Attention and alignment handling (lines 73-75, 154-159,
186-199 of sequence_scorer.py) is not modelled: no claim concerns it, and
it does not feed the score, token, or top-k fields of a hypothesis.
-/

/- ===================== SequenceScorer.__init__ =====================
sequence_scorer.py lines 19-23:
    self.softmax_batch = softmax_batch or sys.maxsize
    assert self.softmax_batch > 0
-/

/-- CPython `sys.maxsize` on a 64-bit platform. -/
def sysMaxsize : Nat := 2 ^ 63 - 1

/-- Python `softmax_batch or sys.maxsize`: both `None` and `0` are falsy and
are replaced by `sys.maxsize`; any other integer passes through. -/
def pyOrMaxsize (softmax_batch : Option Int) : Int :=
  match softmax_batch with
  | none => (sysMaxsize : Int)
  | some v => if v = 0 then (sysMaxsize : Int) else v

/-- The `SequenceScorer.__init__` logic restricted to the `softmax_batch` field: the
stored ceiling when the constructor succeeds, `none` when the
`assert self.softmax_batch > 0` fails. -/
def mkScorerSoftmaxBatch (softmax_batch : Option Int) : Option Nat :=
  let m := pyOrMaxsize softmax_batch
  if 0 < m then some m.toNat else none

/- ===================== batch_for_softmax =====================
sequence_scorer.py lines 34-47.  The decoder output tensor
`first : (bsz, tsz, dim)` is a list of `bsz` rows, each a list of `tsz`
position entries (of type `β`, standing for a `dim`-vector); the target
`(bsz, tsz)` is a list of rows of entries `γ`.  `first.contiguous().view(1,
-1, dim)` flattens the two leading axes in row-major order, which is
`List.flatten`; the python chunks `flat[:, s:e]` keep a leading axis of
size 1, which the embedding renders by wrapping each chunk in a singleton
outer list. -/

/-- Sequential slices `l[s:s+M]` produced by the source loop
`while s < flat.size(1): e = s + M; yield flat[:, s:e]; s = e`.
The source never runs this with `M = 0` (the constructor asserts the
ceiling positive; a zero ceiling would loop forever in python). -/
def chunksOf (M : Nat) (l : List α) : List (List α) :=
  if h : l.isEmpty || M == 0 then []
  else l.take M :: chunksOf M (l.drop M)
termination_by l.length
decreasing_by
  simp only [Bool.or_eq_true, List.isEmpty_eq_true, beq_iff_eq, not_or] at h
  have hM : 0 < M := Nat.pos_of_ne_zero h.2
  have hl : 0 < l.length := List.length_pos.mpr h.1
  simp only [List.length_drop]
  omega

/-- The source `batch_for_softmax(dec_out, target)` with ceiling `M`
(`self.softmax_batch`): one whole-batch triple when `bsz * tsz < M`,
otherwise lockstep slices of the flattened decoder output and target,
each flagged as a sub-chunk. -/
def batch_for_softmax (M : Nat) (first : List (List β)) (target : List (List γ)) :
    List (List (List β) × List (List γ) × Bool) :=
  let bsz := first.length
  let tsz := (first.headD []).length
  if bsz * tsz < M then [(first, target, true)]
  else
    ((chunksOf M first.flatten).zip (chunksOf M target.flatten)).map
      (fun p => ([p.1], [p.2], false))

/- ===================== Datastore writer =====================
eval_lm.py lines 195-215, executed once per hypothesis when
`args.save_knnlm_dstore` is set:

    shape = hypo[dstore_keys].shape
    if dstore_idx + shape[0] > args.dstore_size:
        print("ERROR! dstore_size exceeded!")
        shape = [args.dstore_size - dstore_idx]
        hypo[dstore_keys] = hypo[dstore_keys][:shape[0]]
    actual_size = hypo[tokens].shape[0]
    dstore_token_sample_map[sample_id] = (dstore_idx, actual_size + dstore_idx)
    dstore_keys[dstore_idx:actual_size + dstore_idx] = hypo[dstore_keys][:actual_size, :] ...
    dstore_vals[dstore_idx:actual_size + dstore_idx] = hypo[tokens].view(-1, 1) ...
    dstore_idx += actual_size

The embedding tracks the row counts.  A numpy basic slice
`arr[a:b]` on an array of `cap` rows is clipped to `[min a cap, min b cap)`;
assigning a source of `s` rows into a destination slice of `d` rows
succeeds when `s = d`, or broadcasts when `s = 1`; otherwise it raises
`ValueError` ("could not broadcast"), which aborts the run. -/

/-- Length of the python slice `l[:k]` of a sequence of length `n` for an
arbitrary (possibly negative) integer bound `k`. -/
def pySliceLen (n : Nat) (k : Int) : Nat :=
  if 0 ≤ k then min n k.toNat else n - (-k).toNat

/-- One per-hypothesis datastore write: the sample id, the row count of
`hypo[dstore_keys]` and the row count of `hypo[tokens]`. -/
structure DsWrite where
  sid : Nat
  keysLen : Nat
  tokensLen : Nat
deriving DecidableEq

/-- State of the datastore writer: the cursor `dstore_idx`, the
`dstore_token_sample_map` entries `(sample_id, start, end)` in insertion
order, the number of memmap rows actually assigned, whether the
"ERROR! dstore_size exceeded!" overflow message has been printed, and the
pending uncaught exception if a numpy assignment failed. -/
structure DstoreState where
  dstore_idx : Nat
  smap : List (Nat × Nat × Nat)
  written : Nat
  flagged : Bool
  err : Option String
deriving DecidableEq

def initDstore : DstoreState := ⟨0, [], 0, false, none⟩

/-- Numpy row-dimension compatibility for assigning `src` rows into a
destination slice of `dest` rows. -/
def npRowsOk (src dest : Nat) : Bool := src == dest || src == 1

/-- One iteration of the datastore-writing block (eval_lm.py lines
195-215); once an exception is pending the run is aborted and later writes
do not happen. -/
def writeStep (cap : Nat) (st : DstoreState) (w : DsWrite) : DstoreState :=
  if st.err.isSome then st
  else
    let overflow := cap < st.dstore_idx + w.keysLen
    let flagged := st.flagged || overflow
    let keysLen2 := if overflow then pySliceLen w.keysLen ((cap : Int) - (st.dstore_idx : Int))
                    else w.keysLen
    let actual := w.tokensLen
    let smap2 := st.smap ++ [(w.sid, st.dstore_idx, st.dstore_idx + actual)]
    let destRows := min cap (st.dstore_idx + actual) - min cap st.dstore_idx
    let srcKeyRows := min keysLen2 actual
    if npRowsOk srcKeyRows destRows then
      if npRowsOk actual destRows then
        ⟨st.dstore_idx + actual, smap2, st.written + destRows, flagged, none⟩
      else
        ⟨st.dstore_idx, smap2, st.written + destRows, flagged, some "could not broadcast vals"⟩
    else
      ⟨st.dstore_idx, smap2, st.written, flagged, some "could not broadcast keys"⟩

/-- A whole run of per-sample writes starting from the empty datastore. -/
def runWrites (cap : Nat) (ws : List DsWrite) : DstoreState :=
  ws.foldl (writeStep cap) initDstore

/- ===================== Probability combiner =====================
sequence_scorer.py lines 56-63:

    combine_probs = torch.stack([vocab_p, knn_p], dim=0)
    coeffs = torch.ones_like(combine_probs)
    coeffs[0] = np.log(1 - coeff)
    coeffs[1] = np.log(coeff)
    curr_prob = torch.logsumexp(combine_probs + coeffs, dim=0)

Elementwise this is log(exp(vocab_p + log(1-coeff)) + exp(knn_p + log coeff)),
modelled over the reals. -/

noncomputable def logsumexp2 (x y : ℝ) : ℝ := Real.log (Real.exp x + Real.exp y)

/-- The source `combine_knn_and_vocab_probs(knn_p, vocab_p, coeff)` on two
equally-shaped tensors, flattened to lists. -/
noncomputable def combine_knn_and_vocab_probs (knn_p vocab_p : List ℝ) (coeff : ℝ) : List ℝ :=
  List.zipWith (fun k v => logsumexp2 (v + Real.log (1 - coeff)) (k + Real.log coeff))
    knn_p vocab_p

/- ===================== Final report =====================
eval_lm.py lines 244-245 and 288-293, with `--remove-bpe` unset
(`bpe_toks is None`, so `skipped_toks = 0`) and `add_bos_token` false:

    score_sum += pos_scores.sum().cpu()
    count += pos_scores.numel() - skipped_toks
    ...
    avg_nll_loss = -score_sum / count / math.log(2)
    ... 2 ** avg_nll_loss
-/

/-- The driver accumulators over the positional-score vectors of all
scored hypotheses, folded in iteration order. -/
def evalAccum (posScores : List (List ℝ)) : ℝ × Nat :=
  posScores.foldl (fun acc ps => (acc.1 + ps.sum, acc.2 + ps.length)) (0, 0)

/-- Line 288: `avg_nll_loss = -score_sum / count / math.log(2)`. -/
noncomputable def avg_nll_loss (score_sum : ℝ) (count : Nat) : ℝ :=
  -score_sum / count / Real.log 2

/-- The perplexity figure reported at line 293: `2 ** avg_nll_loss`. -/
noncomputable def reportedPerplexity (score_sum : ℝ) (count : Nat) : ℝ :=
  (2 : ℝ) ^ avg_nll_loss score_sum count

/- ===================== SequenceScorer.generate =====================
sequence_scorer.py lines 29-210.  Token ids are `Nat`; probability values
are `ℚ`.  A model of the ensemble is characterised by the first element of
its decoder output (`decOut`, shape bsz × tsz × vocab) and by
`get_normalized_probs`, which normalises each position along the
vocabulary axis; because that normalisation is per position (and, for an
adaptive softmax, may read the target token of the position from the
sample passed in at line 81), it is modelled as a per-position function of
the log_probs flag, the unnormalised vocabulary scores and the current
target token of the position. -/

abbrev Tok := Nat

structure EmbModel where
  decOut : List (List (List ℚ))
  normalizeRow : Bool → List ℚ → Tok → List ℚ

/-- The scored sample: the target tensor and the optional per-sequence
start offsets.  The other fields (`net_input`, `id`, `ntokens`) are
consumed by collaborators that are opaque here. -/
structure Sample where
  target : List (List Tok)
  start_indices : Option (List Nat)
deriving DecidableEq

/-- The source `gather_target_probs` at one position (lines 49-54): pick the
probability at the target-token index. -/
def gatherProb (row : List ℚ) (t : Tok) : ℚ := row.getD t 0

/-- The call `model.get_normalized_probs(bd, ...)` on a (rows × positions) chunk,
normalising every position with the matching token of the currently set
sample target. -/
def normChunk (m : EmbModel) (lp : Bool) (bd : List (List (List ℚ)))
    (tgt : List (List Tok)) : List (List (List ℚ)) :=
  List.zipWith (fun brow trow => List.zipWith (fun scores t => m.normalizeRow lp scores t) brow trow)
    bd tgt

/-- Per-position `gather_target_probs` over a (rows × positions) chunk. -/
def gather2 (curr : List (List (List ℚ))) (tgt : List (List Tok)) : List (List ℚ) :=
  List.zipWith (fun crow trow => List.zipWith gatherProb crow trow) curr tgt

/-- Accumulator of the chunk loop (lines 79-98): the flat `probs` buffer,
the flat `full_probs` buffer (one vocabulary row per position), and the
current value of the mutable `sample[target]` field. -/
structure ChunkAcc where
  probs : List ℚ
  full_probs : List (List ℚ)
  tgtState : List (List Tok)

/-- One iteration of `for i, (bd, tgt, is_single) in enumerate(batched)`:
line 80 sets `sample[target] = tgt`, line 81 normalises reading that
target, the whole-batch branch (lines 83-85) assigns the buffers, the
chunk branch (lines 86-97) appends at the write cursor (the sequential
writes `probs[idx:end]`, `full_probs[:, idx:end, :]` with `idx` starting
at 0 and advancing by each chunk length are list concatenation), and line
98 restores `sample[target] = orig_target`. -/
def chunkStep (m : EmbModel) (lp : Bool) (orig : List (List Tok))
    (acc : ChunkAcc) (c : List (List (List ℚ)) × List (List Tok) × Bool) : ChunkAcc :=
  let tgtSet := c.2.1
  let curr := normChunk m lp c.1 tgtSet
  let acc2 : ChunkAcc :=
    if c.2.2 then
      ⟨(gather2 curr orig).flatten, curr.flatten, tgtSet⟩
    else
      ⟨acc.probs ++ (gather2 curr tgtSet).flatten, acc.full_probs ++ curr.flatten, tgtSet⟩
  ⟨acc2.probs, acc2.full_probs, orig⟩

/-- The whole chunk loop of one model pass. -/
def chunkPass (m : EmbModel) (lp : Bool) (M : Nat) (orig tgt0 : List (List Tok)) : ChunkAcc :=
  (batch_for_softmax M m.decOut orig).foldl (chunkStep m lp orig) ⟨[], [], tgt0⟩

/-- Line 99: `full_probs[full_probs == 0.] = -1e4`. -/
def floorZeros (f : List (List ℚ)) : List (List ℚ) :=
  f.map (List.map (fun x => if x = 0 then -10000 else x))

/-- Line 103, `probs.view(sample[target].shape)`: split the flat buffer
into rows of the lengths of the (restored) target rows. -/
def reshapeLike (shape : List (List Tok)) (flat : List ℚ) : List (List ℚ) :=
  match shape with
  | [] => []
  | r :: rs => flat.take r.length :: reshapeLike rs (flat.drop r.length)

/-- Line 104, `full_probs.squeeze(0).view(bsz, tsz, -1)`: split the flat
list of vocabulary rows into target-shaped rows. -/
def reshape3 (shape : List (List Tok)) (flat : List (List ℚ)) : List (List (List ℚ)) :=
  match shape with
  | [] => []
  | r :: rs => flat.take r.length :: reshape3 rs (flat.drop r.length)

/-- Result of one model iteration of the ensemble loop, after lines
99-104: target-gathered probabilities and the full distribution, both in
target shape, plus the final value of the mutable target field. -/
structure ModelOut where
  probs2 : List (List ℚ)
  full2 : List (List (List ℚ))
  tgtFinal : List (List Tok)

def modelPass (m : EmbModel) (lp : Bool) (M : Nat) (orig tgt0 : List (List Tok)) : ModelOut :=
  let a := chunkPass m lp M orig tgt0
  ⟨reshapeLike orig a.probs, reshape3 orig (floorZeros a.full_probs), a.tgtState⟩

/-- Stable descending insertion by value; on ties the earlier (lower)
index stays first, matching CPU `torch.topk` order. -/
def insertDesc (p : Nat × ℚ) : List (Nat × ℚ) → List (Nat × ℚ)
  | [] => [p]
  | q :: qs => if q.2 ≤ p.2 then p :: q :: qs else q :: insertDesc p qs

def sortDesc (l : List (Nat × ℚ)) : List (Nat × ℚ) := l.foldr insertDesc []

/-- The `torch.topk(row, k)` indices along the vocabulary axis (line 166 uses
k = 100).  Torch raises when k exceeds the axis size; the embedding clamps
instead, which no claim depends on. -/
def topkIdx (k : Nat) (row : List ℚ) : List Nat :=
  ((sortDesc row.enum).map Prod.fst).take k

/-- One per-sequence scoring result (lines 200-209; the python wraps each
dict in a singleton list, unwrapped by the driver at `hypos_i[0]`).
`dstore_keys` (a tensor slice handed to the datastore writer) and the
attention and alignment fields are not modelled; the datastore writer is
modelled separately on row counts. -/
structure Hypo where
  tokens : List Tok
  score : ℚ
  positional_scores : List ℚ
  predicted_topk : List (List Nat)
deriving DecidableEq, Inhabited

/-- The scorer-side configuration: the softmax ceiling, the pad index,
whether `knn_dstore` was passed in the kwargs, the opaque retrieval
provider (the combined result of lines 124-146 when the ensemble has one
member), and the elementwise `torch.log_` primitive used at line 162. -/
structure GenCfg where
  M : Nat
  pad : Tok
  knnlm : Bool
  knnCombine : List (List ℚ) → List (List (List ℚ)) → List (List ℚ) × List (List (List ℚ))
  lnApprox : ℚ → ℚ

/-- State threaded through `for model in models` (lines 68-159):
`avg_probs`, the surviving `full_probs`, and the sample target field. -/
structure LoopSt where
  avg : Option (List (List ℚ))
  full : Option (List (List (List ℚ)))
  tgtState : List (List Tok)

/-- Elementwise `avg_probs.add_(probs)`. -/
def addT2 (a b : List (List ℚ)) : List (List ℚ) :=
  List.zipWith (fun ra rb => List.zipWith (· + ·) ra rb) a b

/-- The ensemble loop.  With retrieval requested and an ensemble that does
not have exactly one member, line 111 raises
ValueError("Only knn *log* probs are supported.") during the first
iteration, after the forward pass and softmax but before any hypothesis
exists. -/
def modelLoop (cfg : GenCfg) (lp : Bool) (n : Nat) (orig : List (List Tok)) :
    List EmbModel → LoopSt → Except String LoopSt
  | [], st => .ok st
  | m :: rest, st =>
    let mo := modelPass m lp cfg.M orig st.tgtState
    if cfg.knnlm then
      if n ≠ 1 then .error "Only knn *log* probs are supported."
      else
        let pf := cfg.knnCombine mo.probs2 mo.full2
        modelLoop cfg lp n orig rest
          ⟨some (match st.avg with | none => pf.1 | some a => addT2 a pf.1), some pf.2, mo.tgtFinal⟩
    else
      modelLoop cfg lp n orig rest
        ⟨some (match st.avg with | none => mo.probs2 | some a => addT2 a mo.probs2),
         some mo.full2, mo.tgtFinal⟩

/-- The source `utils.strip_pad(t, pad) = t[t.ne(pad)]`: drop every pad token. -/
def strip_pad (l : List Tok) (pad : Tok) : List Tok := l.filter (fun x => x ≠ pad)

/-- The source `SequenceScorer.generate` (lines 29-210).  Returns the hypotheses and
the final value of the mutable `sample[target]` field.  An empty
ensemble is ruled out by the driver assert at eval_lm.py line 108 (the
python would crash dereferencing `avg_probs = None`); it is rendered as an
error. -/
def generate (cfg : GenCfg) (ms : List EmbModel) (sample : Sample) :
    Except String (List Hypo × List (List Tok)) :=
  match ms with
  | [] => .error "assert len(models) > 0"
  | _ :: _ =>
    let lp := ms.length == 1
    let orig := sample.target
    (modelLoop cfg lp ms.length orig ms ⟨none, none, sample.target⟩).map (fun st =>
      let avg0 := st.avg.getD []
      let fullF := st.full.getD []
      let avg := if 1 < ms.length
        then avg0.map (List.map (fun x => cfg.lnApprox (x / (ms.length : ℚ))))
        else avg0
      let topk := fullF.map (List.map (topkIdx 100))
      let bsz := avg.length
      let starts := sample.start_indices.getD (List.replicate bsz 0)
      let hypos := (List.range bsz).map (fun i =>
        let st_i := starts.getD i 0
        let ref := strip_pad ((orig.getD i []).drop st_i) cfg.pad
        let tgt_len := ref.length
        let avg_i := ((avg.getD i []).drop st_i).take tgt_len
        let score_i := avg_i.sum / (tgt_len : ℚ)
        let topk_i := ((topk.getD i []).drop st_i).take tgt_len
        (⟨ref, score_i, avg_i, topk_i⟩ : Hypo))
      (hypos, st.tgtState))

/-- The log-probability that model `m` assigns, at batch row `i` and
position `j`, to the target token at that position (normalisation in
log-probs mode, then `gather_target_probs`). -/
def posLogProb (m : EmbModel) (lp : Bool) (target : List (List Tok)) (i j : Nat) : ℚ :=
  gatherProb (m.normalizeRow lp ((m.decOut.getD i []).getD j []) ((target.getD i []).getD j 0))
    ((target.getD i []).getD j 0)

/-- The per-sequence `predicted_topk` slice that the hypothesis build
(lines 166, 179, 208) derives from the full-vocabulary distribution of one
single model `m` normalised in linear-probability mode — the value a
hypothesis carries whenever `m` is the last member of a multi-model
ensemble. -/
def lastModelTopkAt (cfg : GenCfg) (m : EmbModel) (sample : Sample) (i : Nat) : List (List Nat) :=
  let orig := sample.target
  let fullT := (modelPass m false cfg.M orig orig).full2
  let topk := fullT.map (List.map (topkIdx 100))
  let bsz := orig.length
  let starts := sample.start_indices.getD (List.replicate bsz 0)
  let st_i := starts.getD i 0
  let ref := strip_pad ((orig.getD i []).drop st_i) cfg.pad
  ((topk.getD i []).drop st_i).take ref.length

/- ===================== Evaluation driver =====================
eval_lm.py `main`: the configuration-conflict check at lines 148-149 runs
before the progress loop; inside the loop (lines 176-189) batches lacking
`net_input` are skipped and the scorer is invoked once per remaining
batch. -/

structure EvalCfg where
  gen : GenCfg
  save_knnlm_dstore : Bool

/-- Driver progress: how many batches the scorer has fully scored, and the
pending fatal error, if any. -/
structure EvalState where
  scored : Nat
  err : Option String
deriving DecidableEq

def evalStep (cfg : EvalCfg) (ms : List EmbModel) (st : EvalState) (b : Option Sample) :
    EvalState :=
  if st.err.isSome then st
  else match b with
    | none => st
    | some s =>
      match generate cfg.gen ms s with
      | .error e => ⟨st.scored, some e⟩
      | .ok _ => ⟨st.scored + 1, none⟩

/-- The driver run restricted to conflict checking and batch scoring:
line 148 `if args.knnlm and args.save_knnlm_dstore: raise ValueError(...)`
fires before any batch is touched; otherwise the batches are folded in
iterator order. -/
def runEval (cfg : EvalCfg) (ms : List EmbModel) (batches : List (Option Sample)) : EvalState :=
  if cfg.gen.knnlm && cfg.save_knnlm_dstore then
    ⟨0, some "Cannot use knnlm while trying to build the datastore!"⟩
  else
    batches.foldl (evalStep cfg ms) ⟨0, none⟩

/-- The value gathered for one position: normalise the position with its
target token, then pick the probability at that token. -/
def posGather (m : EmbModel) (lp : Bool) (scores : List ℚ) (t : Tok) : ℚ :=
  gatherProb (m.normalizeRow lp scores t) t

/-- The per-sequence start offset used by the hypothesis loop (line 170):
the supplied start_indices, defaulting to a zero per sequence. -/
def startOf (sample : Sample) (i : Nat) : Nat :=
  (sample.start_indices.getD (List.replicate sample.target.length 0)).getD i 0


/- ===================== Concrete witness inputs ===================== -/

deriving instance DecidableEq for Except

/-- A tiny one-sequence, two-position, two-token-vocabulary model whose
normalisation is the identity (the model provider is opaque to the
scorer). -/
def wIdModel : EmbModel := ⟨[[[1, 2], [3, 4]]], fun _ scores _ => scores⟩

def wSample : Sample := ⟨[[1, 0]], none⟩

/-- A second tiny model, used as the non-last member of a two-model
ensemble. -/
def wModelB : EmbModel := ⟨[[[5, 1], [1, 5]]], fun _ scores _ => scores⟩

def wGenCfg : GenCfg := ⟨100, 0, false, fun p f => (p, f), fun x => x⟩

def wGenCfgKnn : GenCfg := ⟨100, 0, true, fun p f => (p, f), fun x => x⟩

def wEvalConflict : EvalCfg := ⟨wGenCfgKnn, true⟩

def wEvalKnn : EvalCfg := ⟨wGenCfgKnn, false⟩


/- ===================== Helper lemmas ===================== -/

theorem chunksOf_nil (M : Nat) : chunksOf M ([] : List α) = [] := by
  unfold chunksOf; simp

theorem chunksOf_cons_eq (M : Nat) (l : List α) (hM : 0 < M) (hl : l ≠ []) :
    chunksOf M l = l.take M :: chunksOf M (l.drop M) := by
  have hcond : ¬ (l.isEmpty || M == 0) = true := by
    simp only [Bool.or_eq_true, List.isEmpty_eq_true, beq_iff_eq, not_or]
    exact ⟨hl, by omega⟩
  rw [chunksOf, dif_neg hcond]

theorem chunksOf_flatten (M : Nat) (hM : 0 < M) (l : List α) :
    (chunksOf M l).flatten = l := by
  by_cases hl : l = []
  · subst hl; simp [chunksOf_nil]
  · rw [chunksOf_cons_eq M l hM hl]
    have ih := chunksOf_flatten M hM (l.drop M)
    simp [ih]
termination_by l.length
decreasing_by
  have : 0 < l.length := List.length_pos.mpr hl
  simp only [List.length_drop]
  omega

theorem chunksOf_length (M : Nat) (hM : 0 < M) (l : List α) :
    (chunksOf M l).length = (l.length + M - 1) / M := by
  by_cases hl : l = []
  · subst hl
    rw [chunksOf_nil]
    show 0 = (0 + M - 1) / M
    rw [Nat.div_eq_of_lt (by omega)]
  · rw [chunksOf_cons_eq M l hM hl]
    have ih := chunksOf_length M hM (l.drop M)
    have hlen : 0 < l.length := List.length_pos.mpr hl
    simp only [List.length_cons, ih, List.length_drop]
    rcases Nat.lt_or_ge l.length M with hc | hc
    · have h1 : (l.length - M + M - 1) / M = 0 := Nat.div_eq_of_lt (by omega)
      have h3 : (l.length + M - 1) / M = 1 := Nat.div_eq_of_lt_le (by omega) (by omega)
      omega
    · have h1 : l.length - M + M - 1 = l.length - 1 := by omega
      have h2 : l.length + M - 1 = (l.length - 1) + M := by omega
      rw [h1, h2, Nat.add_div_right _ hM]
termination_by l.length
decreasing_by
  have : 0 < l.length := List.length_pos.mpr hl
  simp only [List.length_drop]
  omega

theorem chunksOf_mem_length (M : Nat) (hM : 0 < M) (l : List α) (c : List α)
    (hc : c ∈ chunksOf M l) : c.length ≤ M := by
  by_cases hl : l = []
  · subst hl; simp [chunksOf_nil] at hc
  · rw [chunksOf_cons_eq M l hM hl] at hc
    rcases List.mem_cons.mp hc with h | h
    · subst h
      simpa using List.length_take_le M l
    · exact chunksOf_mem_length M hM (l.drop M) c h
termination_by l.length
decreasing_by
  have : 0 < l.length := List.length_pos.mpr hl
  simp only [List.length_drop]
  omega

theorem flatten_length_of_forall (l : List (List α)) (c : Nat)
    (h : ∀ r ∈ l, r.length = c) : l.flatten.length = l.length * c := by
  induction l with
  | nil => simp
  | cons r rs ih =>
    have hr : r.length = c := h r (by simp)
    have ih2 := ih (fun x hx => h x (by simp [hx]))
    simp [hr, ih2, Nat.succ_mul, Nat.add_comm]

theorem map_snd_zip_of_length_eq (a : List α) (b : List β) (h : a.length = b.length) :
    (a.zip b).map Prod.snd = b :=
  List.map_snd_zip a b (le_of_eq h.symm)

/- ===================== C3: batch softmax splitter ===================== -/

/-- C3: for a decoder output with leading dimensions bsz × tsz and ceiling
M, if bsz*tsz < M the splitter yields exactly one whole-batch triple with
the unchanged input and original target; otherwise it yields exactly
⌈bsz*tsz / M⌉ sub-chunk triples, each of length at most M and flagged
false, whose targets concatenate in order to exactly the original
flattened target. -/
theorem batch_for_softmax_spec {β γ : Type} (M bsz tsz : Nat)
    (first : List (List β)) (target : List (List γ))
    (hM : 0 < M) (hb : first.length = bsz) (hbt : target.length = bsz)
    (hrow : ∀ r ∈ first, r.length = tsz) (hrowt : ∀ r ∈ target, r.length = tsz) :
    (bsz * tsz < M → batch_for_softmax M first target = [(first, target, true)]) ∧
    (M ≤ bsz * tsz →
      (batch_for_softmax M first target).length = (bsz * tsz + M - 1) / M ∧
      (∀ c ∈ batch_for_softmax M first target, c.2.2 = false ∧ c.2.1.flatten.length ≤ M) ∧
      ((batch_for_softmax M first target).map (fun c => c.2.1.flatten)).flatten
        = target.flatten) := by
  have hflat1 : first.flatten.length = bsz * tsz := by
    rw [flatten_length_of_forall first tsz hrow, hb]
  have hflat2 : target.flatten.length = bsz * tsz := by
    rw [flatten_length_of_forall target tsz hrowt, hbt]
  constructor
  · intro hlt
    have hcond : first.length * (first.headD []).length < M := by
      cases hf : first with
      | nil => simpa [hf] using hM
      | cons r rs =>
        have : r.length = tsz := hrow r (by simp [hf])
        simp only [hf, List.headD_cons]
        rw [this]
        rw [hf] at hb
        simpa [hb] using hlt
    simp only [batch_for_softmax]
    rw [if_pos hcond]
  · intro hge
    have hfne : first ≠ [] := by
      intro hc
      have hb0 : bsz = 0 := by rw [← hb, hc]; rfl
      rw [hb0, Nat.zero_mul] at hge
      omega
    have hcond : ¬ (first.length * (first.headD []).length < M) := by
      cases hf : first with
      | nil => exact absurd hf hfne
      | cons r rs =>
        have : r.length = tsz := hrow r (by simp [hf])
        simp only [hf, List.headD_cons]
        rw [this]
        rw [hf] at hb
        rw [hb]
        exact Nat.not_lt.mpr hge
    have hzl : (chunksOf M first.flatten).length = (chunksOf M target.flatten).length := by
      rw [chunksOf_length M hM, chunksOf_length M hM, hflat1, hflat2]
    have hres : batch_for_softmax M first target =
        ((chunksOf M first.flatten).zip (chunksOf M target.flatten)).map
          (fun p => ([p.1], [p.2], false)) := by
      simp only [batch_for_softmax]
      rw [if_neg hcond]
    refine ⟨?_, ?_, ?_⟩
    · rw [hres]
      simp only [List.length_map, List.length_zip]
      rw [chunksOf_length M hM, chunksOf_length M hM, hflat1, hflat2]
      simp
    · intro c hc
      rw [hres] at hc
      rcases List.mem_map.mp hc with ⟨p, hp, hpc⟩
      have hmem := List.of_mem_zip hp
      refine ⟨by rw [← hpc], ?_⟩
      rw [← hpc]
      simpa using chunksOf_mem_length M hM target.flatten p.2 hmem.2
    · rw [hres, List.map_map]
      have h2 : ((chunksOf M first.flatten).zip (chunksOf M target.flatten)).map
            ((fun c => c.2.1.flatten) ∘ (fun p => (([p.1], [p.2], false) :
              List (List β) × List (List γ) × Bool)))
          = ((chunksOf M first.flatten).zip (chunksOf M target.flatten)).map Prod.snd :=
        List.map_congr_left (fun p _ => by simp)
      rw [h2]
      rw [map_snd_zip_of_length_eq (chunksOf M first.flatten) (chunksOf M target.flatten) hzl]
      rw [chunksOf_flatten M hM]

/-- Witness for C3 at M = 2, bsz = 1, tsz = 3. -/
theorem batch_for_softmax_spec_witness :
    (batch_for_softmax 2 [[(10 : Nat), 20, 30]] [[(1 : Nat), 2, 3]]).length
        = (1 * 3 + 2 - 1) / 2 ∧
    ((batch_for_softmax 2 [[(10 : Nat), 20, 30]] [[(1 : Nat), 2, 3]]).map
        (fun c => c.2.1.flatten)).flatten = [1, 2, 3] := by
  have h := (batch_for_softmax_spec 2 1 3 [[(10 : Nat), 20, 30]] [[(1 : Nat), 2, 3]]
    (by decide) (by decide) (by decide) (by decide) (by decide)).2 (by decide)
  exact ⟨h.1, h.2.2⟩

/- ===================== C9: constructor ceiling ===================== -/

/-- C9: a softmax_batch of None or 0 is replaced by sys.maxsize, under
which every batch whose flattened size is below sys.maxsize takes the
whole-batch path; a negative softmax_batch fails the constructor assert. -/
theorem softmax_batch_defaulting {β γ : Type} :
    mkScorerSoftmaxBatch none = some sysMaxsize ∧
    mkScorerSoftmaxBatch (some 0) = some sysMaxsize ∧
    (∀ v : Int, v < 0 → mkScorerSoftmaxBatch (some v) = none) ∧
    (∀ (first : List (List β)) (target : List (List γ)),
      first.length * (first.headD []).length < sysMaxsize →
      batch_for_softmax sysMaxsize first target = [(first, target, true)]) := by
  refine ⟨by decide, by decide, ?_, ?_⟩
  · intro v hv
    simp only [mkScorerSoftmaxBatch, pyOrMaxsize]
    rw [if_neg (show ¬ v = 0 by omega)]
    rw [if_neg (show ¬ (0 : Int) < v by omega)]
  · intro first target hlt
    simp only [batch_for_softmax]
    rw [if_pos hlt]

/-- Witness for C9: a negative ceiling fails, and a 1 × 1 batch takes the
whole-batch path under the defaulted ceiling. -/
theorem softmax_batch_defaulting_witness :
    mkScorerSoftmaxBatch (some (-5)) = none ∧
    batch_for_softmax sysMaxsize [[(7 : Nat)]] [[(4 : Nat)]] = [([[7]], [[4]], true)] := by
  refine ⟨(softmax_batch_defaulting (β := Nat) (γ := Nat)).2.2.1 (-5) (by decide), ?_⟩
  exact (softmax_batch_defaulting (β := Nat) (γ := Nat)).2.2.2 [[7]] [[4]] (by decide)

/- ===================== C1 and C2: datastore writer ===================== -/

/-- C1 (code bug evaluation): with capacity 1, two writes of one key row
and one token each complete without an exception (the second value write
broadcasts into an empty slice), the overflow is flagged and the key write
truncated, yet the cursor ends at 2, exceeding the capacity — the cursor
advances by the untruncated token count. -/
theorem dstore_cursor_exceeds_capacity :
    (runWrites 1 [⟨0, 1, 1⟩, ⟨1, 1, 1⟩]).err = none ∧
    (runWrites 1 [⟨0, 1, 1⟩, ⟨1, 1, 1⟩]).flagged = true ∧
    (runWrites 1 [⟨0, 1, 1⟩, ⟨1, 1, 1⟩]).dstore_idx = 2 := by decide

/-- C2 (code bug evaluation): writing capacity + 10 rows (capacity 10, one
sample of 20 key rows and 20 tokens) truncates the key write to 10 rows
and flags the overflow, but records a map range ending at 20 (not at the
capacity) and then crashes assigning the 20 untruncated values into the 10
remaining rows — evaluation does not continue. -/
theorem dstore_overflow_crashes :
    (runWrites 10 [⟨0, 20, 20⟩]).flagged = true ∧
    (runWrites 10 [⟨0, 20, 20⟩]).written = 10 ∧
    (runWrites 10 [⟨0, 20, 20⟩]).smap = [(0, 0, 20)] ∧
    (runWrites 10 [⟨0, 20, 20⟩]).err = some "could not broadcast vals" := by decide

/- ===================== C5: probability combiner ===================== -/

theorem logsumexp2_swap (x y lam : ℝ) :
    logsumexp2 (y + Real.log (1 - lam)) (x + Real.log lam)
      = logsumexp2 (x + Real.log (1 - (1 - lam))) (y + Real.log (1 - lam)) := by
  rw [sub_sub_cancel]
  unfold logsumexp2
  rw [add_comm]

/-- C5: for equally-shaped log-probability tensors and any mixing weight
λ in (0,1), combine(a, b, λ) = combine(b, a, 1-λ) elementwise, both being
logsumexp(b + log(1-λ), a + log λ). -/
theorem combine_knn_and_vocab_probs_symm (a b : List ℝ) (lam : ℝ)
    (h0 : 0 < lam) (h1 : lam < 1) :
    combine_knn_and_vocab_probs a b lam = combine_knn_and_vocab_probs b a (1 - lam) := by
  induction a generalizing b with
  | nil => cases b <;> simp [combine_knn_and_vocab_probs]
  | cons x xs ih =>
    cases b with
    | nil => simp [combine_knn_and_vocab_probs]
    | cons y ys =>
      simp only [combine_knn_and_vocab_probs, List.zipWith_cons_cons]
      have hx := logsumexp2_swap x y lam
      have ht := ih ys
      simp only [combine_knn_and_vocab_probs] at ht
      rw [hx, ht]

/-- Witness for C5 at a = [0], b = [0], λ = 1/2. -/
theorem combine_knn_and_vocab_probs_symm_witness :
    (0 : ℝ) < 1 / 2 ∧ (1 / 2 : ℝ) < 1 ∧
    combine_knn_and_vocab_probs [0] [0] (1 / 2)
      = combine_knn_and_vocab_probs [0] [0] (1 - 1 / 2) :=
  ⟨by norm_num, by norm_num,
    combine_knn_and_vocab_probs_symm [0] [0] (1 / 2) (by norm_num) (by norm_num)⟩

/- ===================== C6: final report ===================== -/

theorem evalAccum_fold (runs : List (List ℝ)) (s : ℝ) (c : Nat) :
    runs.foldl (fun acc ps => (acc.1 + ps.sum, acc.2 + ps.length)) (s, c)
      = (s + (runs.map (fun ps => ps.sum)).sum, c + (runs.map List.length).sum) := by
  induction runs generalizing s c with
  | nil => simp
  | cons p ps ih => simp [ih, add_assoc]

/-- C6: over the accumulated per-hypothesis positional scores, the driver
reports avg_nll = -(score sum) / (token count) / ln 2 and a perplexity of
2 raised to that avg_nll. -/
theorem perplexity_report (runs : List (List ℝ)) :
    avg_nll_loss (evalAccum runs).1 (evalAccum runs).2
      = -((runs.map (fun ps => ps.sum)).sum) / (((runs.map List.length).sum : Nat) : ℝ)
          / Real.log 2 ∧
    reportedPerplexity (evalAccum runs).1 (evalAccum runs).2
      = (2 : ℝ) ^ avg_nll_loss (evalAccum runs).1 (evalAccum runs).2 := by
  have h := evalAccum_fold runs 0 0
  constructor
  · simp only [evalAccum, h, avg_nll_loss, zero_add]
  · rfl

/- ===================== C8: target field restored ===================== -/

theorem chunkFold_tgtState (m : EmbModel) (lp : Bool) (orig : List (List Tok))
    (cs : List (List (List (List ℚ)) × List (List Tok) × Bool)) (acc : ChunkAcc)
    (h : acc.tgtState = orig) :
    (cs.foldl (chunkStep m lp orig) acc).tgtState = orig := by
  induction cs generalizing acc with
  | nil => exact h
  | cons c cs ih => exact ih (chunkStep m lp orig acc c) rfl

theorem modelPass_tgtFinal (m : EmbModel) (lp : Bool) (M : Nat)
    (orig tgt0 : List (List Tok)) (h : tgt0 = orig) :
    (modelPass m lp M orig tgt0).tgtFinal = orig := by
  simp only [modelPass, chunkPass]
  exact chunkFold_tgtState m lp orig _ _ (by simp [h])

theorem modelLoop_tgtState (cfg : GenCfg) (lp : Bool) (n : Nat) (orig : List (List Tok))
    (ms : List EmbModel) (st : LoopSt) (h : st.tgtState = orig) (st2 : LoopSt)
    (hok : modelLoop cfg lp n orig ms st = .ok st2) : st2.tgtState = orig := by
  induction ms generalizing st with
  | nil =>
    simp only [modelLoop] at hok
    cases hok
    exact h
  | cons m rest ih =>
    simp only [modelLoop] at hok
    split at hok
    · split at hok
      · cases hok
      · exact ih _ (modelPass_tgtFinal m lp cfg.M orig st.tgtState h) hok
    · exact ih _ (modelPass_tgtFinal m lp cfg.M orig st.tgtState h) hok

/-- C8: whenever generate returns, the target field of the sample — set to
each chunk target during the chunked softmax pass and restored after every
chunk — equals its value on entry. -/
theorem generate_restores_target (cfg : GenCfg) (ms : List EmbModel) (sample : Sample)
    (hypos : List Hypo) (t : List (List Tok))
    (hgen : generate cfg ms sample = .ok (hypos, t)) : t = sample.target := by
  cases ms with
  | nil => simp [generate] at hgen
  | cons m rest =>
    simp only [generate] at hgen
    cases hml : modelLoop cfg ((m :: rest).length == 1) (m :: rest).length sample.target
        (m :: rest) ⟨none, none, sample.target⟩ with
    | error e =>
      rw [hml] at hgen
      simp [Except.map] at hgen
    | ok st =>
      rw [hml] at hgen
      simp only [Except.map, Except.ok.injEq] at hgen
      have ht : st.tgtState = t := congrArg Prod.snd hgen
      have h2 := modelLoop_tgtState cfg ((m :: rest).length == 1) (m :: rest).length
        sample.target (m :: rest) ⟨none, none, sample.target⟩ rfl st hml
      rw [← ht]
      exact h2

/- ===================== C4: configuration conflicts ===================== -/

theorem generate_knn_multi_error (cfg : GenCfg) (ms : List EmbModel) (sample : Sample)
    (hk : cfg.knnlm = true) (hlen : 1 < ms.length) :
    generate cfg ms sample = .error "Only knn *log* probs are supported." := by
  cases ms with
  | nil => simp at hlen
  | cons m rest =>
    simp only [generate]
    have hml : modelLoop cfg ((m :: rest).length == 1) (m :: rest).length sample.target
        (m :: rest) ⟨none, none, sample.target⟩
        = .error "Only knn *log* probs are supported." := by
      simp only [modelLoop, hk, if_true]
      rw [if_pos (show (m :: rest).length ≠ 1 by
        simp only [List.length_cons] at hlen ⊢
        omega)]
    rw [hml]
    rfl

theorem evalFold_frozen (cfg : EvalCfg) (ms : List EmbModel) (bs : List (Option Sample))
    (st : EvalState) (h : st.err.isSome) : bs.foldl (evalStep cfg ms) st = st := by
  induction bs with
  | nil => rfl
  | cons b bs ih =>
    have hstep : evalStep cfg ms st b = st := by simp [evalStep, h]
    rw [List.foldl_cons, hstep, ih]

theorem evalFold_knn_error (cfg : EvalCfg) (ms : List EmbModel)
    (hk : cfg.gen.knnlm = true) (hlen : 1 < ms.length)
    (batches : List (Option Sample)) (hex : ∃ b ∈ batches, b.isSome) :
    batches.foldl (evalStep cfg ms) ⟨0, none⟩
      = ⟨0, some "Only knn *log* probs are supported."⟩ := by
  induction batches with
  | nil => simp at hex
  | cons b bs ih =>
    cases b with
    | none =>
      have hstep : evalStep cfg ms ⟨0, none⟩ none = ⟨0, none⟩ := rfl
      rw [List.foldl_cons, hstep]
      apply ih
      rcases hex with ⟨b2, hb2, hs2⟩
      rcases List.mem_cons.mp hb2 with hh | hh
      · subst hh; simp at hs2
      · exact ⟨b2, hh, hs2⟩
    | some s =>
      have hstep : evalStep cfg ms ⟨0, none⟩ (some s)
          = ⟨0, some "Only knn *log* probs are supported."⟩ := by
        simp only [evalStep]
        rw [generate_knn_multi_error cfg.gen ms s hk hlen]
        rfl
      rw [List.foldl_cons, hstep]
      exact evalFold_frozen cfg ms bs _ rfl

/-- C4: requesting retrieval fusion together with datastore building makes
the driver fail before touching any batch; requesting retrieval fusion
with an ensemble of more than one model raises the scorer error during the
first scored batch, so in both cases the run ends with an error and with
zero batches scored. -/
theorem config_conflicts_fatal (cfg : EvalCfg) (ms : List EmbModel)
    (batches : List (Option Sample)) :
    (cfg.gen.knnlm = true → cfg.save_knnlm_dstore = true →
      runEval cfg ms batches
        = ⟨0, some "Cannot use knnlm while trying to build the datastore!"⟩) ∧
    (cfg.gen.knnlm = true → cfg.save_knnlm_dstore = false → 1 < ms.length →
      (∃ b ∈ batches, b.isSome) →
      (runEval cfg ms batches).scored = 0 ∧
      (runEval cfg ms batches).err = some "Only knn *log* probs are supported.") := by
  constructor
  · intro h1 h2
    simp [runEval, h1, h2]
  · intro h1 h2 hlen hex
    have : runEval cfg ms batches = batches.foldl (evalStep cfg ms) ⟨0, none⟩ := by
      simp [runEval, h1, h2]
    rw [this, evalFold_knn_error cfg ms h1 hlen batches hex]
    exact ⟨rfl, rfl⟩

/-- Witness for C8: a concrete single-model run returns with the sample
target unchanged. -/
theorem generate_witness_eval :
    generate wGenCfg [wIdModel] wSample = .ok ([⟨[1], 2, [2], [[1, 0]]⟩], [[1, 0]]) := by
  norm_num [generate, modelLoop, modelPass, chunkPass, chunkStep, batch_for_softmax,
    normChunk, gather2, floorZeros, reshapeLike, reshape3, topkIdx, sortDesc, insertDesc,
    strip_pad, gatherProb, wGenCfg, wIdModel, wSample, Except.map, List.getD,
    List.range_succ, Option.map, List.enum, List.enumFrom]

theorem generate_restores_target_witness :
    generate wGenCfg [wIdModel] wSample = .ok ([⟨[1], 2, [2], [[1, 0]]⟩], [[1, 0]]) ∧
    ([[1, 0]] : List (List Tok)) = wSample.target :=
  ⟨generate_witness_eval, generate_restores_target wGenCfg [wIdModel] wSample
      [⟨[1], 2, [2], [[1, 0]]⟩] [[1, 0]] generate_witness_eval⟩

/-- Witness for C4: the conflicting configuration fails up front with no
batch scored, and a two-model ensemble with retrieval fails on the first
batch with no batch scored. -/
theorem config_conflicts_fatal_witness :
    runEval wEvalConflict [wIdModel] []
      = ⟨0, some "Cannot use knnlm while trying to build the datastore!"⟩ ∧
    (runEval wEvalKnn [wIdModel, wIdModel] [some wSample]).scored = 0 ∧
    (runEval wEvalKnn [wIdModel, wIdModel] [some wSample]).err
      = some "Only knn *log* probs are supported." := by
  refine ⟨(config_conflicts_fatal wEvalConflict [wIdModel] []).1 rfl rfl, ?_⟩
  exact (config_conflicts_fatal wEvalKnn [wIdModel, wIdModel] [some wSample]).2 rfl rfl
    (by decide) ⟨some wSample, by simp, rfl⟩

/- ===================== List lemmas for the scorer ===================== -/

theorem zipWith_fuse {α β γ δ : Type} (g : δ → β → γ) (f : α → β → δ)
    (a : List α) (b : List β) :
    List.zipWith g (List.zipWith f a b) b = List.zipWith (fun x y => g (f x y) y) a b := by
  induction a generalizing b with
  | nil => simp
  | cons x xs ih =>
    cases b with
    | nil => simp
    | cons y ys => simp [ih]

theorem forall2_flatten_length {α β : Type} (a : List (List α)) (b : List (List β))
    (h : List.Forall₂ (fun r s => r.length = s.length) a b) :
    a.flatten.length = b.flatten.length := by
  induction h with
  | nil => rfl
  | cons h1 h2 ih => simp [h1, ih]

theorem flatten_zipWith {α β γ : Type} (g : α → β → γ) (a : List (List α)) (b : List (List β))
    (h : List.Forall₂ (fun r s => r.length = s.length) a b) :
    (List.zipWith (fun ra rb => List.zipWith g ra rb) a b).flatten
      = List.zipWith g a.flatten b.flatten := by
  induction h with
  | nil => rfl
  | cons h1 h2 ih =>
    rename_i ra rb ta tb
    simp only [List.zipWith_cons_cons, List.flatten_cons, ih, List.flatten]
    rw [List.zipWith_append _ _ _ _ _ h1]

theorem chunks_zipWith {α β γ : Type} (g : α → β → γ) (M : Nat) (hM : 0 < M)
    (a : List α) (b : List β) (h : a.length = b.length) :
    (((chunksOf M a).zip (chunksOf M b)).map (fun p => List.zipWith g p.1 p.2)).flatten
      = List.zipWith g a b := by
  by_cases ha : a = []
  · have hb : b = [] := List.eq_nil_of_length_eq_zero (by rw [← h, ha]; rfl)
    subst ha; subst hb
    simp [chunksOf_nil]
  · have hb : b ≠ [] := by
      intro hc
      rw [hc] at h
      exact ha (List.eq_nil_of_length_eq_zero (by simpa using h))
    rw [chunksOf_cons_eq M a hM ha, chunksOf_cons_eq M b hM hb]
    have hlen : (a.take M).length = (b.take M).length := by
      simp [h]
    have ih := chunks_zipWith g M hM (a.drop M) (b.drop M) (by simp [h])
    simp only [List.zip_cons_cons, List.map_cons, List.flatten_cons, ih]
    conv_rhs => rw [← List.take_append_drop M a, ← List.take_append_drop M b]
    rw [List.zipWith_append _ _ _ _ _ hlen]
termination_by a.length
decreasing_by
  have : 0 < a.length := List.length_pos.mpr ha
  simp only [List.length_drop]
  omega

theorem reshapeLike_flatten (c : List (List ℚ)) (shape : List (List Tok))
    (h : List.Forall₂ (fun (r : List ℚ) (s : List Tok) => r.length = s.length) c shape) :
    reshapeLike shape c.flatten = c := by
  induction h with
  | nil => rfl
  | cons h1 h2 ih =>
    rename_i r s tc ts
    simp only [List.flatten_cons, reshapeLike]
    rw [← h1, List.take_left, List.drop_left, ih]

theorem reshape3_flatten (c : List (List (List ℚ))) (shape : List (List Tok))
    (h : List.Forall₂ (fun (r : List (List ℚ)) (s : List Tok) => r.length = s.length) c shape) :
    reshape3 shape c.flatten = c := by
  induction h with
  | nil => rfl
  | cons h1 h2 ih =>
    rename_i r s tc ts
    simp only [List.flatten_cons, reshape3]
    rw [← h1, List.take_left, List.drop_left, ih]

theorem reshapeLike_length (shape : List (List Tok)) (flat : List ℚ) :
    (reshapeLike shape flat).length = shape.length := by
  induction shape generalizing flat with
  | nil => rfl
  | cons r rs ih => simp [reshapeLike, ih]

theorem getD_map_range {α : Type} (d : α) (f : Nat → α) (n i : Nat) (h : i < n) :
    ((List.range n).map f).getD i d = f i := by
  rw [List.getD_eq_getElem _ _ (by simpa using h)]
  simp

theorem getD_replicate_zero (n i : Nat) : (List.replicate n 0).getD i 0 = 0 := by
  rcases Nat.lt_or_ge i n with h | h
  · rw [List.getD_eq_getElem _ _ (by simpa using h)]
    simp
  · rw [List.getD_eq_default]
    simpa using h

theorem getD_drop {α : Type} (l : List α) (n j : Nat) (d : α) :
    (l.drop n).getD j d = l.getD (n + j) d := by
  rw [List.getD_eq_getElem?_getD, List.getD_eq_getElem?_getD, List.getElem?_drop]

theorem getD_append_left {α : Type} (a b : List α) (j : Nat) (d : α) (h : j < a.length) :
    (a ++ b).getD j d = a.getD j d := by
  rw [List.getD_eq_getElem _ _ (by simp; omega), List.getD_eq_getElem _ _ h]
  exact List.getElem_append_left h

theorem slice_eq_range_map (row : List ℚ) (st n : Nat) (h : st + n ≤ row.length) :
    (row.drop st).take n = (List.range n).map (fun j => row.getD (st + j) 0) := by
  apply List.ext_getElem
  · simp
    omega
  · intro j h1 h2
    have hj : j < n := by simpa using h2
    have hrow : st + j < row.length := by omega
    rw [List.getElem_take, List.getElem_drop]
    rw [List.getElem_map, List.getElem_range]
    rw [List.getD_eq_getElem _ _ hrow]

theorem list_eq_range_map_getD (a : List Tok) (g : Nat → Tok)
    (h : ∀ j, j < a.length → a.getD j 0 = g j) : a = (List.range a.length).map g := by
  apply List.ext_getElem
  · simp
  · intro j h1 h2
    rw [List.getElem_map, List.getElem_range]
    rw [← List.getD_eq_getElem a 0 h1]
    exact h j h1

/- ===================== Chunk pass denotation ===================== -/

theorem gather2_normChunk (m : EmbModel) (lp : Bool)
    (dec : List (List (List ℚ))) (tgt : List (List Tok)) :
    gather2 (normChunk m lp dec tgt) tgt
      = List.zipWith (fun dr tr => List.zipWith (posGather m lp) dr tr) dec tgt := by
  unfold gather2 normChunk
  rw [zipWith_fuse]
  have hfun : (fun (x : List (List ℚ)) (y : List Tok) =>
      List.zipWith gatherProb (List.zipWith (fun scores t => m.normalizeRow lp scores t) x y) y)
      = fun x y => List.zipWith (posGather m lp) x y := by
    funext x y
    rw [zipWith_fuse]
    rfl
  rw [hfun]

theorem piece_probs (m : EmbModel) (lp : Bool) (c : List (List ℚ)) (t : List Tok) :
    (gather2 (normChunk m lp [c] [t]) [t]).flatten = List.zipWith (posGather m lp) c t := by
  rw [gather2_normChunk]
  simp

theorem piece_full (m : EmbModel) (lp : Bool) (c : List (List ℚ)) (t : List Tok) :
    (normChunk m lp [c] [t]).flatten
      = List.zipWith (fun scores tok => m.normalizeRow lp scores tok) c t := by
  unfold normChunk
  simp

theorem chunkFold_pieces (m : EmbModel) (lp : Bool) (orig : List (List Tok))
    (l : List (List (List ℚ) × List Tok)) (acc : ChunkAcc) :
    (l.map (fun p => (([p.1], [p.2], false) :
        List (List (List ℚ)) × List (List Tok) × Bool))).foldl (chunkStep m lp orig) acc
      = ⟨acc.probs ++ (l.map (fun p => List.zipWith (posGather m lp) p.1 p.2)).flatten,
         acc.full_probs ++ (l.map (fun p =>
           List.zipWith (fun scores tok => m.normalizeRow lp scores tok) p.1 p.2)).flatten,
         if l.isEmpty then acc.tgtState else orig⟩ := by
  induction l generalizing acc with
  | nil =>
    cases acc
    simp
  | cons p ps ih =>
    simp only [List.map_cons, List.foldl_cons]
    have hstep : chunkStep m lp orig acc ([p.1], [p.2], false)
        = ⟨acc.probs ++ List.zipWith (posGather m lp) p.1 p.2,
           acc.full_probs ++ List.zipWith (fun scores tok => m.normalizeRow lp scores tok) p.1 p.2,
           orig⟩ := by
      simp only [chunkStep, if_neg (by simp : ¬ (([p.1], [p.2], false) :
        List (List (List ℚ)) × List (List Tok) × Bool).2.2 = true)]
      rw [piece_probs, piece_full]
    rw [hstep, ih]
    simp [List.append_assoc]

theorem chunkPass_denote (m : EmbModel) (lp : Bool) (M : Nat)
    (orig tgt0 : List (List Tok)) (hM : 0 < M)
    (hsh : List.Forall₂ (fun (r : List (List ℚ)) (s : List Tok) => r.length = s.length)
      m.decOut orig) :
    (chunkPass m lp M orig tgt0).probs
        = (List.zipWith (fun dr tr => List.zipWith (posGather m lp) dr tr)
            m.decOut orig).flatten ∧
    (chunkPass m lp M orig tgt0).full_probs
        = (List.zipWith (fun dr tr =>
            List.zipWith (fun scores tok => m.normalizeRow lp scores tok) dr tr)
            m.decOut orig).flatten := by
  unfold chunkPass batch_for_softmax
  by_cases hcond : m.decOut.length * (m.decOut.headD []).length < M
  · rw [if_pos hcond]
    simp only [List.foldl_cons, List.foldl_nil]
    constructor
    · show (chunkStep m lp orig ⟨[], [], tgt0⟩ (m.decOut, orig, true)).probs = _
      simp only [chunkStep, if_pos rfl]
      rw [gather2_normChunk]
      simp
    · show (chunkStep m lp orig ⟨[], [], tgt0⟩ (m.decOut, orig, true)).full_probs = _
      simp only [chunkStep, if_pos rfl]
      simp only [if_true, eq_self_iff_true]
      unfold normChunk
      simp
  · rw [if_neg hcond]
    have hflen : m.decOut.flatten.length = orig.flatten.length :=
      forall2_flatten_length _ _ hsh
    have hzip : ((chunksOf M m.decOut.flatten).zip (chunksOf M orig.flatten)).map
          (fun p => (([p.1], [p.2], false) :
            List (List (List ℚ)) × List (List Tok) × Bool))
        = ((chunksOf M m.decOut.flatten).zip (chunksOf M orig.flatten)).map
          (fun p => ([p.1], [p.2], false)) := rfl
    rw [chunkFold_pieces m lp orig ((chunksOf M m.decOut.flatten).zip (chunksOf M orig.flatten))
      ⟨[], [], tgt0⟩]
    constructor
    · show [] ++ _ = _
      rw [List.nil_append]
      rw [chunks_zipWith _ M hM _ _ hflen]
      rw [flatten_zipWith _ _ _ hsh]
    · show [] ++ _ = _
      rw [List.nil_append]
      rw [chunks_zipWith _ M hM _ _ hflen]
      rw [flatten_zipWith _ _ _ hsh]

/- ===================== Model pass and loop lemmas ===================== -/

theorem forall2_zipWith_inner {α β γ : Type} (f : α → β → γ)
    (a : List (List α)) (b : List (List β))
    (h : List.Forall₂ (fun r s => r.length = s.length) a b) :
    List.Forall₂ (fun (r : List γ) (s : List β) => r.length = s.length)
      (List.zipWith (fun ra rb => List.zipWith f ra rb) a b) b := by
  induction h with
  | nil => exact List.Forall₂.nil
  | cons h1 h2 ih => exact List.Forall₂.cons (by simp [h1]) ih

theorem modelPass_probs2 (m : EmbModel) (lp : Bool) (M : Nat)
    (orig tgt0 : List (List Tok)) (hM : 0 < M)
    (hsh : List.Forall₂ (fun (r : List (List ℚ)) (s : List Tok) => r.length = s.length)
      m.decOut orig) :
    (modelPass m lp M orig tgt0).probs2
      = List.zipWith (fun dr tr => List.zipWith (posGather m lp) dr tr) m.decOut orig := by
  simp only [modelPass]
  rw [(chunkPass_denote m lp M orig tgt0 hM hsh).1]
  exact reshapeLike_flatten _ _ (forall2_zipWith_inner _ _ _ hsh)

theorem chunkFold_indep (m : EmbModel) (lp : Bool) (orig : List (List Tok))
    (cs : List (List (List (List ℚ)) × List (List Tok) × Bool)) (acc1 acc2 : ChunkAcc)
    (hp : acc1.probs = acc2.probs) (hf : acc1.full_probs = acc2.full_probs) :
    (cs.foldl (chunkStep m lp orig) acc1).probs
        = (cs.foldl (chunkStep m lp orig) acc2).probs ∧
    (cs.foldl (chunkStep m lp orig) acc1).full_probs
        = (cs.foldl (chunkStep m lp orig) acc2).full_probs := by
  induction cs generalizing acc1 acc2 with
  | nil => exact ⟨hp, hf⟩
  | cons c cs ih =>
    simp only [List.foldl_cons]
    apply ih
    · simp only [chunkStep]
      split
      · rfl
      · rw [hp]
    · simp only [chunkStep]
      split
      · rfl
      · rw [hf]

theorem modelPass_full2_indep (m : EmbModel) (lp : Bool) (M : Nat)
    (orig t1 t2 : List (List Tok)) :
    (modelPass m lp M orig t1).full2 = (modelPass m lp M orig t2).full2 := by
  simp only [modelPass, chunkPass]
  rw [(chunkFold_indep m lp orig _ ⟨[], [], t1⟩ ⟨[], [], t2⟩ rfl rfl).2]

theorem modelLoop_full_last (cfg : GenCfg) (lp : Bool) (n : Nat) (orig : List (List Tok))
    (hk : cfg.knnlm = false) (l : List EmbModel) (ml : EmbModel) (st st2 : LoopSt)
    (hok : modelLoop cfg lp n orig (l ++ [ml]) st = .ok st2) :
    st2.full = some ((modelPass ml lp cfg.M orig orig).full2) := by
  induction l generalizing st with
  | nil =>
    simp only [List.nil_append, modelLoop, hk, Bool.false_eq_true, if_false] at hok
    cases hok
    exact congrArg some (modelPass_full2_indep ml lp cfg.M orig st.tgtState orig)
  | cons m l2 ih =>
    simp only [List.cons_append, modelLoop, hk, Bool.false_eq_true, if_false] at hok
    exact ih _ hok

/- ===================== C10: ensemble top-k from last model ===================== -/

/-- C10: in a multi-model ensemble without retrieval, every hypothesis
carries as predicted_topk exactly the per-position top-100 of the last
full vocabulary distribution of the last model (full_probs is reassigned on every
iteration of the model loop and the top-k extraction runs once after it),
never the ensemble average. -/
theorem ensemble_topk_from_last_model (cfg : GenCfg) (l : List EmbModel) (mlast : EmbModel)
    (sample : Sample) (hypos : List Hypo) (t : List (List Tok))
    (hk : cfg.knnlm = false) (hl : l ≠ [])
    (hgen : generate cfg (l ++ [mlast]) sample = .ok (hypos, t)) :
    ∀ i, i < hypos.length →
      (hypos.getD i default).predicted_topk = lastModelTopkAt cfg mlast sample i := by
  cases l with
  | nil => exact absurd rfl hl
  | cons a l2 =>
    simp only [List.cons_append, generate] at hgen
    cases hml : modelLoop cfg ((a :: (l2 ++ [mlast])).length == 1)
        (a :: (l2 ++ [mlast])).length sample.target (a :: (l2 ++ [mlast]))
        ⟨none, none, sample.target⟩ with
    | error e =>
      rw [hml] at hgen
      simp [Except.map] at hgen
    | ok st =>
      rw [hml] at hgen
      simp only [Except.map, Except.ok.injEq] at hgen
      have hlp : ((a :: (l2 ++ [mlast])).length == 1) = false := by
        rw [beq_eq_false_iff_ne]
        simp
      have hfull : st.full = some ((modelPass mlast false cfg.M sample.target
          sample.target).full2) := by
        have h := modelLoop_full_last cfg ((a :: (l2 ++ [mlast])).length == 1)
          (a :: (l2 ++ [mlast])).length sample.target hk (a :: l2) mlast
          ⟨none, none, sample.target⟩ st (by simpa using hml)
        rwa [hlp] at h
      cases hgen
      intro i hi
      simp only [List.length_map, List.length_range] at hi
      rw [getD_map_range _ _ _ _ hi]
      simp only [lastModelTopkAt, hfull, Option.getD_some]
      cases hsi : sample.start_indices with
      | some lst => simp [hsi]
      | none =>
        simp only [hsi, Option.getD_none]
        rw [getD_replicate_zero, getD_replicate_zero]

theorem generate_witness_eval2 :
    generate wGenCfg [wModelB, wIdModel] wSample
      = .ok ([⟨[1], 3 / 2, [3 / 2], [[1, 0]]⟩], [[1, 0]]) := by
  norm_num [generate, modelLoop, modelPass, chunkPass, chunkStep, batch_for_softmax,
    normChunk, gather2, floorZeros, reshapeLike, reshape3, topkIdx, sortDesc, insertDesc,
    strip_pad, gatherProb, addT2, wGenCfg, wIdModel, wModelB, wSample, Except.map,
    List.getD, List.range_succ, Option.map, List.enum, List.enumFrom]

/-- Witness for C10: a concrete two-model ensemble run in which the
hypothesis top-k equals the top-k of the last model alone. -/
theorem ensemble_topk_from_last_model_witness :
    generate wGenCfg [wModelB, wIdModel] wSample
      = .ok ([⟨[1], 3 / 2, [3 / 2], [[1, 0]]⟩], [[1, 0]]) ∧
    (([⟨[1], 3 / 2, [3 / 2], [[1, 0]]⟩] : List Hypo).getD 0 default).predicted_topk
      = lastModelTopkAt wGenCfg wIdModel wSample 0 :=
  ⟨generate_witness_eval2,
    ensemble_topk_from_last_model wGenCfg [wModelB] wIdModel wSample
      [⟨[1], 3 / 2, [3 / 2], [[1, 0]]⟩] [[1, 0]] rfl (List.cons_ne_nil _ _)
      generate_witness_eval2 0 (by decide)⟩

/- ===================== Single-model scoring lemmas ===================== -/

theorem forall2_getD_len {α β : Type} (a : List (List α)) (b : List (List β))
    (h : List.Forall₂ (fun r s => r.length = s.length) a b) (i : Nat) :
    i < b.length → (a.getD i []).length = (b.getD i []).length := by
  induction h generalizing i with
  | nil => intro hi; simp at hi
  | cons h1 h2 ih =>
    intro hi
    cases i with
    | zero => simpa using h1
    | succ j =>
      simp only [List.getD_cons_succ]
      exact ih j (by simpa using hi)

theorem getD_zipWith {α β γ : Type} (f : α → β → γ) (a : List α) (b : List β)
    (i : Nat) (da : α) (db : β) (dc : γ) (ha : i < a.length) (hb : i < b.length) :
    (List.zipWith f a b).getD i dc = f (a.getD i da) (b.getD i db) := by
  rw [List.getD_eq_getElem _ _ (by simp; omega), List.getD_eq_getElem _ _ ha,
    List.getD_eq_getElem _ _ hb]
  exact List.getElem_zipWith

theorem strip_pad_append (pad : Tok) (a b : List Tok)
    (hpa : ∀ x ∈ a, x ≠ pad) (hpb : ∀ x ∈ b, x = pad) :
    strip_pad (a ++ b) pad = a := by
  unfold strip_pad
  rw [List.filter_append]
  rw [List.filter_eq_self.mpr (fun x hx => by simpa using hpa x hx)]
  rw [List.filter_eq_nil_iff.mpr (fun x hx => by simpa using hpb x hx), List.append_nil]

theorem generate_single (cfg : GenCfg) (m : EmbModel) (sample : Sample)
    (hk : cfg.knnlm = false) :
    generate cfg [m] sample = .ok (
      (List.range (modelPass m true cfg.M sample.target sample.target).probs2.length).map
        (fun i =>
          let P := (modelPass m true cfg.M sample.target sample.target).probs2
          let F := (modelPass m true cfg.M sample.target sample.target).full2
          let starts := sample.start_indices.getD (List.replicate P.length 0)
          let st_i := starts.getD i 0
          let ref := strip_pad ((sample.target.getD i []).drop st_i) cfg.pad
          (⟨ref, (((P.getD i []).drop st_i).take ref.length).sum / (ref.length : ℚ),
           ((P.getD i []).drop st_i).take ref.length,
           (((F.map (List.map (topkIdx 100))).getD i []).drop st_i).take ref.length⟩ : Hypo)),
      (modelPass m true cfg.M sample.target sample.target).tgtFinal) := by
  simp only [generate, modelLoop, hk, Bool.false_eq_true, if_false, Except.map]
  simp

theorem startOf_any_len (sample : Sample) (i n : Nat) :
    (sample.start_indices.getD (List.replicate n 0)).getD i 0 = startOf sample i := by
  unfold startOf
  cases sample.start_indices with
  | none =>
    simp only [Option.getD_none]
    rw [getD_replicate_zero, getD_replicate_zero]
  | some lst => rfl

/-- C7: with a single model and no retrieval, every hypothesis carries as
tokens the padding-stripped reference taken from the sequence start
offset, and as score the sum of the positional log-probabilities at those
reference positions divided by the stripped reference length. -/
theorem single_model_score_spec (cfg : GenCfg) (m : EmbModel) (sample : Sample)
    (hypos : List Hypo) (t : List (List Tok))
    (hk : cfg.knnlm = false) (hM : 0 < cfg.M)
    (hsh : List.Forall₂ (fun (r : List (List ℚ)) (s : List Tok) => r.length = s.length)
      m.decOut sample.target)
    (hpad : ∀ i, i < sample.target.length →
      ∃ a b, (sample.target.getD i []).drop (startOf sample i) = a ++ b ∧
        (∀ x ∈ a, x ≠ cfg.pad) ∧ (∀ x ∈ b, x = cfg.pad))
    (hgen : generate cfg [m] sample = .ok (hypos, t)) :
    ∀ i, i < hypos.length →
      (hypos.getD i default).tokens
        = (List.range (hypos.getD i default).tokens.length).map
            (fun j => (sample.target.getD i []).getD (startOf sample i + j) 0) ∧
      (hypos.getD i default).score
        = ((List.range (hypos.getD i default).tokens.length).map
            (fun j => posLogProb m true sample.target i (startOf sample i + j))).sum
          / ((hypos.getD i default).tokens.length : ℚ) := by
  rw [generate_single cfg m sample hk] at hgen
  simp only [Except.ok.injEq, Prod.mk.injEq] at hgen
  obtain ⟨hh, hht⟩ := hgen
  subst hh
  have hP : (modelPass m true cfg.M sample.target sample.target).probs2
      = List.zipWith (fun dr tr => List.zipWith (posGather m true) dr tr)
        m.decOut sample.target :=
    modelPass_probs2 m true cfg.M sample.target sample.target hM hsh
  have hPlen : (modelPass m true cfg.M sample.target sample.target).probs2.length
      = sample.target.length := by
    simp only [modelPass]
    exact reshapeLike_length _ _
  intro i hi
  simp only [List.length_map, List.length_range] at hi
  rw [getD_map_range _ _ _ _ hi]
  have hit : i < sample.target.length := by rw [← hPlen]; exact hi
  obtain ⟨a, b, hab, hpa, hpb⟩ := hpad i hit
  simp only [startOf_any_len]
  have href : strip_pad ((sample.target.getD i []).drop (startOf sample i)) cfg.pad = a := by
    rw [hab]
    exact strip_pad_append cfg.pad a b hpa hpb
  simp only [href]
  have hdec : m.decOut.length = sample.target.length := hsh.length_eq
  have hrowl : (m.decOut.getD i []).length = (sample.target.getD i []).length :=
    forall2_getD_len m.decOut sample.target hsh i hit
  have hrow : (modelPass m true cfg.M sample.target sample.target).probs2.getD i []
      = List.zipWith (posGather m true) (m.decOut.getD i []) (sample.target.getD i []) := by
    rw [hP]
    exact getD_zipWith _ _ _ i [] [] [] (by rw [hdec]; exact hit) hit
  have htok : a = (List.range a.length).map
      (fun j => (sample.target.getD i []).getD (startOf sample i + j) 0) := by
    apply list_eq_range_map_getD
    intro j hj
    rw [← getD_drop, hab, getD_append_left _ _ _ _ hj]
  refine ⟨htok, ?_⟩
  rcases le_or_lt (startOf sample i) (sample.target.getD i []).length with hstle | hstgt
  · have hlen2 : startOf sample i + a.length ≤ (sample.target.getD i []).length := by
      have hd := congrArg List.length hab
      simp only [List.length_drop, List.length_append] at hd
      omega
    have hrlen : ((modelPass m true cfg.M sample.target
        sample.target).probs2.getD i []).length = (sample.target.getD i []).length := by
      rw [hrow]
      rw [List.length_zipWith, hrowl, Nat.min_self]
    have hslice := slice_eq_range_map
      ((modelPass m true cfg.M sample.target sample.target).probs2.getD i [])
      (startOf sample i) a.length (by rw [hrlen]; exact hlen2)
    rw [hslice]
    have hcong : ∀ j ∈ List.range a.length,
        ((modelPass m true cfg.M sample.target sample.target).probs2.getD i []).getD
            (startOf sample i + j) 0
          = posLogProb m true sample.target i (startOf sample i + j) := by
      intro j hjmem
      have hj : j < a.length := List.mem_range.mp hjmem
      have hb1 : startOf sample i + j < (m.decOut.getD i []).length := by
        rw [hrowl]
        omega
      have hb2 : startOf sample i + j < (sample.target.getD i []).length := by omega
      rw [hrow, getD_zipWith _ _ _ _ [] 0 0 hb1 hb2]
      rfl
    rw [List.map_congr_left hcong]
  · have hdrop : (sample.target.getD i []).drop (startOf sample i) = [] :=
      List.drop_eq_nil_of_le (by omega)
    rw [hdrop] at hab
    have ha : a = [] := (List.append_eq_nil.mp hab.symm).1
    subst ha
    simp

/-- Witness for C7: the concrete single-model run scores the one stripped
reference token with its gathered log-probability. -/
theorem single_model_score_spec_witness :
    (([⟨[1], 2, [2], [[1, 0]]⟩] : List Hypo).getD 0 default).tokens
      = (List.range (([⟨[1], 2, [2], [[1, 0]]⟩] : List Hypo).getD 0 default).tokens.length).map
          (fun j => (wSample.target.getD 0 []).getD (startOf wSample 0 + j) 0) ∧
    (([⟨[1], 2, [2], [[1, 0]]⟩] : List Hypo).getD 0 default).score
      = ((List.range (([⟨[1], 2, [2], [[1, 0]]⟩] : List Hypo).getD 0 default).tokens.length).map
          (fun j => posLogProb wIdModel true wSample.target 0 (startOf wSample 0 + j))).sum
        / ((([⟨[1], 2, [2], [[1, 0]]⟩] : List Hypo).getD 0 default).tokens.length : ℚ) :=
  single_model_score_spec wGenCfg wIdModel wSample [⟨[1], 2, [2], [[1, 0]]⟩] [[1, 0]]
    rfl (by decide) (List.Forall₂.cons rfl List.Forall₂.nil)
    (by
      intro i hi
      have h0 : i = 0 := by
        simp only [wSample, List.length_cons, List.length_nil] at hi
        omega
      subst h0
      exact ⟨[1], [0], rfl, by decide, by decide⟩)
    generate_witness_eval 0 (by decide)
